import Mathlib

/-!
Verification development for the kMeanswImage repository (src/script.js).

The file shallowly embeds the algorithmic core of the repository:
the k-means clustering engine (`kmeans`), the segmentation renderer
(`applySegmentation`), the 3D-to-2D projection used by `drawPlot`
(`projectPoint`), and the pointer/wheel gesture state machine that
mutates the camera state (`step`).

Numeric modelling: the JavaScript code computes with IEEE doubles; the
clustering and segmentation code is embedded over `ℚ` (exact
arithmetic), and the gesture/camera code — which needs `Math.hypot`,
i.e. square roots — over `ℝ`.  `Math.random()` has no seed in the
source; its successive draws `Math.floor(Math.random()*n)` are modelled
as an explicit list of natural-number draws consumed by the
centroid-selection loop.
-/

namespace Script

/-- A 3-channel color point, the shape of the `[r,g,b]` arrays of
`script.js` (entries in [0,1] when they come from an image). -/
structure Vec3 where
  x : ℚ
  y : ℚ
  z : ℚ
deriving DecidableEq, Repr

def zeroV : Vec3 := ⟨0, 0, 0⟩

def addV (a b : Vec3) : Vec3 := ⟨a.x + b.x, a.y + b.y, a.z + b.z⟩

/-- Sum of a list of points, channel-wise. -/
def vsum : List Vec3 → Vec3
  | [] => zeroV
  | v :: rest => addV v (vsum rest)

/-- `dist2` from script.js line 251: squared Euclidean distance of two
color points. -/
def dist2 (a b : Vec3) : ℚ :=
  let dx := a.x - b.x
  let dy := a.y - b.y
  let dz := a.z - b.z
  dx * dx + dy * dy + dz * dz

/-- The scan `let best=0,bestd=dist2(x,C[0]); for(j=1..){if(d<bestd)...}`
shared by the assignment step of `kmeans` (line 234) and by
`applySegmentation` (line 265): running best index and best distance
over the remaining centroids, `j` being the index of the head of the
remaining list. -/
def scanBest (x : Vec3) : List Vec3 → ℕ → ℕ → ℚ → ℕ
  | [], _, best, _ => best
  | c :: rest, j, best, bestd =>
    if dist2 x c < bestd then scanBest x rest (j + 1) j (dist2 x c)
    else scanBest x rest (j + 1) best bestd

/-- Index of the nearest centroid to `x` (strict improvement only, so
exact ties keep the lowest index).  The source never calls this with an
empty centroid list (it would crash on `C[0]`); the `[]` case is a
junk value never relied upon. -/
def nearestIdx (x : Vec3) : List Vec3 → ℕ
  | [] => 0
  | c :: rest => scanBest x rest 1 0 (dist2 x c)

/-- Assignment step of `kmeans` (lines 232-237): each point gets the
index of its nearest centroid. -/
def assign (X C : List Vec3) : List ℕ := X.map fun x => nearestIdx x C

/-- The accumulation loop of the update step (line 242):
`sums[l] += x; counts[l]++` over all (point, label) pairs. -/
def accumSC : List (Vec3 × ℕ) → List Vec3 → List ℕ → List Vec3 × List ℕ
  | [], sums, counts => (sums, counts)
  | (v, l) :: rest, sums, counts =>
    accumSC rest (sums.set l (addV (sums.getD l zeroV) v))
      (counts.set l (counts.getD l 0 + 1))

/-- Update step of `kmeans` (lines 239-245): every centroid index with a
nonzero count becomes the channel-wise mean of its assigned points;
a zero-count centroid keeps its previous value (`continue`). -/
def updateStep (X : List Vec3) (labels : List ℕ) (C : List Vec3) : List Vec3 :=
  let sc := accumSC (X.zip labels) (List.replicate C.length zeroV)
    (List.replicate C.length 0)
  (List.range C.length).map fun j =>
    if sc.2.getD j 0 = 0 then C.getD j zeroV
    else ⟨(sc.1.getD j zeroV).x / (sc.2.getD j 0 : ℚ),
          (sc.1.getD j zeroV).y / (sc.2.getD j 0 : ℚ),
          (sc.1.getD j zeroV).z / (sc.2.getD j 0 : ℚ)⟩

/-- Main loop of `kmeans` (lines 229-247): assign, record whether any
label changed, update, and stop early when nothing changed.  Note that
the update step runs *before* the convergence check, exactly as in the
source. -/
def kmeansLoop (X : List Vec3) : ℕ → List Vec3 → List ℕ → List Vec3 × List ℕ
  | 0, C, labels => (C, labels)
  | it + 1, C, labels =>
    let labels' := assign X C
    let C' := updateStep X labels' C
    if labels' = labels then (C', labels')
    else kmeansLoop X it C' labels'

/-- Mirror of `kmeansLoop` recording whether the loop stops via the
`if(!changed) break` branch before exhausting `maxIter`. -/
def stopsEarly (X : List Vec3) : ℕ → List Vec3 → List ℕ → Bool
  | 0, _, _ => false
  | it + 1, C, labels =>
    let labels' := assign X C
    if labels' = labels then true
    else stopsEarly X it (updateStep X labels' C) labels'

/-- Initialization loop of `kmeans` (lines 223-226):
`while(C.length<k){ const i=rng(); if(used.has(i)) continue;
used.add(i); C.push(X[i].slice()); }`.  The successive values of
`rng()` (each `Math.floor(Math.random()*n)`) are modelled as the list
`rands`; running out of modelled draws yields `none` (the real loop
would keep drawing — it can only ever terminate if `k` distinct indices
are reachable).  Returns the chosen indices in selection order. -/
def initIdx (X : List Vec3) (k : ℕ) : List ℕ → List ℕ → Option (List ℕ)
  | rands, chosen =>
    if k ≤ chosen.length then some chosen
    else
      match rands with
      | [] => none
      | r :: rest =>
        if r ∈ chosen then initIdx X k rest chosen
        else initIdx X k rest (chosen ++ [r])

/-- `kmeans(X, k, {maxIter})` of script.js lines 220-249, with the
random draws made explicit.  The source returns only `C`; the final
labels array is returned as well because callers of the specified
`cluster` operation may need the assignment. -/
def kmeans (X : List Vec3) (k maxIter : ℕ) (rands : List ℕ) :
    Option (List Vec3 × List ℕ) :=
  (initIdx X k rands []).map fun idxs =>
    kmeansLoop X maxIter (idxs.map fun i => X.getD i zeroV)
      (List.replicate X.length 0)

/-- Spec-side: the list of points currently assigned to centroid `j`. -/
def assignedPts (X : List Vec3) (labels : List ℕ) (j : ℕ) : List Vec3 :=
  ((X.zip labels).filter fun p => p.2 = j).map Prod.fst

/-- Spec-side: exact channel-wise arithmetic mean of a list of points. -/
def meanV (X : List Vec3) : Vec3 :=
  ⟨(X.map Vec3.x).sum / X.length,
   (X.map Vec3.y).sum / X.length,
   (X.map Vec3.z).sum / X.length⟩

/-- `Math.round` on a nonnegative value: round half away from zero,
i.e. `⌊q + 1/2⌋` (segmentation only rounds values in `[0,255]`). -/
def jsRound (q : ℚ) : ℤ := ⌊q + 1 / 2⌋

/-- One output RGBA pixel of `applySegmentation` (lines 269-272): the
centroid's channels scaled to 0..255 and rounded, with alpha 255. -/
def quantC (c : Vec3) : ℤ × ℤ × ℤ × ℤ :=
  (jsRound (c.x * 255), jsRound (c.y * 255), jsRound (c.z * 255), 255)

/-- `applySegmentation` of script.js lines 255-277, on the row-major
list of pixels: each pixel is replaced by its nearest centroid's
quantized color at full opacity.  With an empty centroid list the
source crashes on `centroids[0]`; that is modelled as `none`. -/
def applySegmentation (pixels centroids : List Vec3) :
    Option (List (ℤ × ℤ × ℤ × ℤ)) :=
  match centroids with
  | [] => none
  | _ :: _ =>
    some (pixels.map fun px => quantC (centroids.getD (nearestIdx px centroids) zeroV))

/-! ### Projection (drawPlot, lines 166-185, 207-217)

`rotationMatrixX(a)` and `rotationMatrixY(a)` build their matrices from
`Math.cos(a)` and `Math.sin(a)`.  Cosine and sine are transcendental,
so the embedding takes the two matrix entries `ca`, `sa` (resp. `cb`,
`sb`) as parameters; every theorem below holds for all their values,
hence in particular for cosines and sines of any angles. -/

/-- A 3x3 matrix as three rows. -/
def Mat3 := Vec3 × Vec3 × Vec3

/-- `rotationMatrixX` (line 207): `[[1,0,0],[0,ca,-sa],[0,sa,ca]]`. -/
def rotationMatrixX (ca sa : ℚ) : Mat3 :=
  (⟨1, 0, 0⟩, ⟨0, ca, -sa⟩, ⟨0, sa, ca⟩)

/-- `rotationMatrixY` (line 211): `[[ca,0,sa],[0,1,0],[-sa,0,ca]]`. -/
def rotationMatrixY (ca sa : ℚ) : Mat3 :=
  (⟨ca, 0, sa⟩, ⟨0, 1, 0⟩, ⟨-sa, 0, ca⟩)

/-- `mulMat` (line 215): matrix-vector product, rows dotted with `v`. -/
def mulMat (M : Mat3) (v : Vec3) : Vec3 :=
  ⟨M.1.x * v.x + M.1.y * v.y + M.1.z * v.z,
   M.2.1.x * v.x + M.2.1.y * v.y + M.2.1.z * v.z,
   M.2.2.x * v.x + M.2.2.y * v.y + M.2.2.z * v.z⟩

/-- The per-point projection performed by `drawPlot` (lines 172-182):
`cx = width/2 + panX`, `cy = height/2 + panY`,
`scale = min(width,height)/2 * zoom`, `v2 = Ry * (Rx * p)`,
screen point `(cx + v2[0]*scale, cy - v2[1]*scale)`. -/
def projectPoint (ca sa cb sb zoom panX panY width height : ℚ)
    (p : Vec3) : ℚ × ℚ :=
  let cx := width / 2 + panX
  let cy := height / 2 + panY
  let scale := min width height / 2 * zoom
  let v := mulMat (rotationMatrixX ca sa) p
  let v2 := mulMat (rotationMatrixY cb sb) v
  (cx + v2.x * scale, cy - v2.y * scale)

/-- Spec-side: rotation of `p` about the horizontal (x) axis given the
cosine `ca` and sine `sa` of the angle. -/
def specRotX (ca sa : ℚ) (p : Vec3) : Vec3 :=
  ⟨p.x, ca * p.y - sa * p.z, sa * p.y + ca * p.z⟩

/-- Spec-side: rotation of `p` about the vertical (y) axis given the
cosine `cb` and sine `sb` of the angle. -/
def specRotY (cb sb : ℚ) (p : Vec3) : Vec3 :=
  ⟨cb * p.x + sb * p.z, p.y, -sb * p.x + cb * p.z⟩

/-! ### Gesture controller and camera state (lines 68-116)

The pointer map, cached baselines, and camera scalars of script.js.
`Math.hypot` needs square roots, so this part is embedded over `ℝ`
(noncomputable; the theorems below evaluate concrete states through
`simp` with square-root lemmas). -/

noncomputable section Gesture

/-- The mutable view/gesture state of script.js: the insertion-ordered
pointer map (`pointers`), the cached pinch baselines (`lastPinchDist`,
`lastMid`, `lastSingle`), and the camera scalars
(`rotXVal`, `rotYVal`, `zoomVal`, `panX`, `panY`). -/
structure GState where
  pointers : List (ℕ × ℝ × ℝ)
  lastPinchDist : Option ℝ
  lastMid : Option (ℝ × ℝ)
  lastSingle : Option (ℝ × ℝ)
  rotXVal : ℝ
  rotYVal : ℝ
  zoomVal : ℝ
  panX : ℝ
  panY : ℝ

/-- `distance` (line 115): `Math.hypot(dx, dy)`. -/
def distance (a b : ℝ × ℝ) : ℝ :=
  Real.sqrt ((a.1 - b.1) * (a.1 - b.1) + (a.2 - b.2) * (a.2 - b.2))

/-- `midpoint` (line 116). -/
def midpt (a b : ℝ × ℝ) : ℝ × ℝ := ((a.1 + b.1) / 2, (a.2 + b.2) / 2)

/-- `pointers.has(id)` on the insertion-ordered association list. -/
def hasPtr (l : List (ℕ × ℝ × ℝ)) (i : ℕ) : Bool := l.any fun q => q.1 = i

/-- `pointers.set(id, pos)`: JS `Map.set` updates in place when the key
exists (keeping insertion order) and appends otherwise. -/
def setPtr (l : List (ℕ × ℝ × ℝ)) (i : ℕ) (p : ℝ × ℝ) : List (ℕ × ℝ × ℝ) :=
  if hasPtr l i then l.map fun q => if q.1 = i then (i, p) else q
  else l ++ [(i, p)]

/-- `pointers.delete(id)`. -/
def delPtr (l : List (ℕ × ℝ × ℝ)) (i : ℕ) : List (ℕ × ℝ × ℝ) :=
  l.filter fun q => ¬ q.1 = i

/-- Position of the `n`-th tracked pointer, in insertion order
(`Array.from(pointers.values())[n]`). -/
def ptrPos (l : List (ℕ × ℝ × ℝ)) (n : ℕ) : ℝ × ℝ :=
  (l.getD n (0, (0, 0))).2

/-- The `pointerdown` handler (lines 72-81). -/
def pointerdown (i : ℕ) (x y : ℝ) (s : GState) : GState :=
  let ptrs := setPtr s.pointers i (x, y)
  if ptrs.length = 1 then
    { s with pointers := ptrs, lastSingle := some (x, y) }
  else if ptrs.length = 2 then
    { s with pointers := ptrs,
             lastPinchDist := some (distance (ptrPos ptrs 0) (ptrPos ptrs 1)),
             lastMid := some (midpt (ptrPos ptrs 0) (ptrPos ptrs 1)) }
  else { s with pointers := ptrs }

/-- The `pointermove` handler (lines 82-110).  With one active pointer
it rotates; with two it pinch-zooms and pans against the cached
baselines and refreshes them; with any other pointer count it only
records the new position. -/
def pointermove (i : ℕ) (x y : ℝ) (s : GState) : GState :=
  if hasPtr s.pointers i = false then s
  else
    let ptrs := setPtr s.pointers i (x, y)
    if ptrs.length = 1 then
      let p := ptrPos ptrs 0
      match s.lastSingle with
      | some ls =>
        { s with pointers := ptrs,
                 rotYVal := s.rotYVal + (p.1 - ls.1) * (1 / 100),
                 rotXVal := s.rotXVal + (p.2 - ls.2) * (1 / 100),
                 lastSingle := some p }
      | none => { s with pointers := ptrs, lastSingle := some p }
    else if ptrs.length = 2 then
      let dst := distance (ptrPos ptrs 0) (ptrPos ptrs 1)
      let mid := midpt (ptrPos ptrs 0) (ptrPos ptrs 1)
      let z := match s.lastPinchDist with
        | some lpd => s.zoomVal * (dst / lpd)
        | none => s.zoomVal
      let pan : ℝ × ℝ := match s.lastMid with
        | some lm => (s.panX + (mid.1 - lm.1), s.panY + (mid.2 - lm.2))
        | none => (s.panX, s.panY)
      { s with pointers := ptrs, zoomVal := z, panX := pan.1, panY := pan.2,
               lastPinchDist := some dst, lastMid := some mid,
               lastSingle := none }
    else { s with pointers := ptrs }

/-- The `pointerup` / `pointercancel` handlers (lines 111-112): drop the
pointer and clear every cached baseline. -/
def pointerup (i : ℕ) (s : GState) : GState :=
  { s with pointers := delPtr s.pointers i,
           lastPinchDist := none, lastMid := none, lastSingle := none }

/-- The `wheel` handler (line 113): `zoomVal *= (1 + (-deltaY)*0.001)`,
with no guard of any kind. -/
def wheelEvt (deltaY : ℝ) (s : GState) : GState :=
  { s with zoomVal := s.zoomVal * (1 + -deltaY * (1 / 1000)) }

/-- A discrete input event of the gesture controller. -/
inductive PEvent where
  | down (i : ℕ) (x y : ℝ)
  | move (i : ℕ) (x y : ℝ)
  | up (i : ℕ)
  | cancel (i : ℕ)
  | wheel (deltaY : ℝ)

/-- Dispatch of one event to its handler. -/
def step : PEvent → GState → GState
  | .down i x y, s => pointerdown i x y s
  | .move i x y, s => pointermove i x y s
  | .up i, s => pointerup i s
  | .cancel i, s => pointerup i s
  | .wheel d, s => wheelEvt d s

/-- Run a sequence of events. -/
def run (es : List PEvent) (s : GState) : GState :=
  es.foldl (fun t e => step e t) s

/-- The positions of the first two tracked pointers differ. -/
def firstTwoDistinct (l : List (ℕ × ℝ × ℝ)) : Prop :=
  ptrPos l 0 ≠ ptrPos l 1

/-- Benign event, relative to the current state: a wheel event whose
factor is positive, and a down/move event that does not place the two
tracked pointers of a two-pointer state on top of each other. -/
def goodEvt (s : GState) : PEvent → Prop
  | .wheel d => 0 < 1 + -d * (1 / 1000)
  | .down i x y =>
    (setPtr s.pointers i (x, y)).length = 2 →
      firstTwoDistinct (setPtr s.pointers i (x, y))
  | .move i x y =>
    hasPtr s.pointers i = true →
      (setPtr s.pointers i (x, y)).length = 2 →
        firstTwoDistinct (setPtr s.pointers i (x, y))
  | .up _ => True
  | .cancel _ => True

/-- Every event of the sequence is benign in the state it meets. -/
def goodRun (s : GState) : List PEvent → Prop
  | [] => True
  | e :: es => goodEvt s e ∧ goodRun (step e s) es

/-- The invariant tying the camera claims together: positive zoom and a
positive cached pinch baseline. -/
def CamInv (s : GState) : Prop :=
  0 < s.zoomVal ∧ ∀ d, s.lastPinchDist = some d → 0 < d

end Gesture

/-! ## Helper lemmas on list indexing -/

theorem getD_set_ne {α : Type} (l : List α) {i j : ℕ} (a d : α) (h : i ≠ j) :
    (l.set i a).getD j d = l.getD j d := by
  simp only [List.getD_eq_getElem?_getD, List.getElem?_set_ne h]

theorem getD_set_self {α : Type} (l : List α) {j : ℕ} (a d : α)
    (h : j < l.length) : (l.set j a).getD j d = a := by
  simp only [List.getD_eq_getElem?_getD, List.getElem?_set_eq_of_lt a h,
    Option.getD_some]

theorem getD_replicate {α : Type} {n j : ℕ} (a d : α) (h : j < n) :
    (List.replicate n a).getD j d = a := by
  simp only [List.getD_eq_getElem?_getD, List.getElem?_replicate, if_pos h,
    Option.getD_some]

theorem getD_range_map {α : Type} (f : ℕ → α) {n j : ℕ} (d : α) (h : j < n) :
    ((List.range n).map f).getD j d = f j := by
  simp only [List.getD_eq_getElem?_getD, List.getElem?_map,
    List.getElem?_range h, Option.map_some', Option.getD_some]

theorem getD_map_of_lt {α β : Type} (f : α → β) (l : List α) {i : ℕ}
    (d : β) (d' : α) (h : i < l.length) :
    (l.map f).getD i d = f (l.getD i d') := by
  simp only [List.getD_eq_getElem?_getD, List.getElem?_map,
    List.getElem?_eq_getElem h, Option.map_some', Option.getD_some]

theorem length_le_of_nodup_bounded {l : List ℕ} {n : ℕ} (hnd : l.Nodup)
    (hb : ∀ i ∈ l, i < n) : l.length ≤ n := by
  calc l.length = l.toFinset.card := (List.toFinset_card_of_nodup hnd).symm
    _ ≤ (Finset.range n).card := by
        refine Finset.card_le_card ?_
        intro a ha
        exact Finset.mem_range.mpr (hb a (List.mem_toFinset.mp ha))
    _ = n := Finset.card_range n

/-! ## C1: argument validation -/

theorem initIdx_stalls (X : List Vec3) (k : ℕ) (hk : X.length < k) :
    ∀ rands chosen : List ℕ, chosen.Nodup → (∀ i ∈ chosen, i < X.length) →
      (∀ r ∈ rands, r < X.length) → initIdx X k rands chosen = none := by
  intro rands
  induction rands with
  | nil =>
    intro chosen hnd hb _
    have hlen : chosen.length ≤ X.length := length_le_of_nodup_bounded hnd hb
    rw [initIdx]
    rw [if_neg (by omega)]
  | cons r rest ih =>
    intro chosen hnd hb hr
    have hlen : chosen.length ≤ X.length := length_le_of_nodup_bounded hnd hb
    rw [initIdx]
    rw [if_neg (by omega)]
    by_cases hmem : r ∈ chosen
    · simp only [if_pos hmem]
      exact ih chosen hnd hb fun a ha => hr a (List.mem_cons_of_mem r ha)
    · simp only [if_neg hmem]
      refine ih (chosen ++ [r]) ?_ ?_ fun a ha => hr a (List.mem_cons_of_mem r ha)
      · simp [List.nodup_append, hnd, hmem]
      · intro a ha
        rcases List.mem_append.mp ha with h' | h'
        · exact hb a h'
        · have : a = r := List.mem_singleton.mp h'
          exact this ▸ hr r (List.mem_cons_self r rest)

/-- Claim C1: the spec demands that `cluster` fail with `InvalidArgument`
— before any state mutation — when `points` is empty, `k < 1`, or
`k > points.length`, instead of running or diverging.  The code has no
validation at all: when `k > points.length` the initialization
`while`-loop of `kmeans` can never collect `k` distinct indices and
spins forever.  Formally: for every modelled sequence of random draws
(each draw `Math.floor(Math.random()*n)` is `< n`), however long, the
initialization never completes, so `kmeans` never returns. -/
theorem kmeans_diverges_when_k_gt_n (X : List Vec3) (k maxIter : ℕ)
    (rands : List ℕ) (hk : X.length < k) (hr : ∀ r ∈ rands, r < X.length) :
    kmeans X k maxIter rands = none := by
  unfold kmeans
  rw [initIdx_stalls X k hk rands [] List.nodup_nil (by simp) hr]
  rfl

/-- Witness for C1 at the spec's own scenario: 2 points, `k = 3`. -/
theorem kmeans_diverges_when_k_gt_n_witness :
    kmeans [⟨0, 0, 0⟩, ⟨1, 1, 1⟩] 3 30 [0, 1, 0, 1, 1] = none :=
  kmeans_diverges_when_k_gt_n [⟨0, 0, 0⟩, ⟨1, 1, 1⟩] 3 30 [0, 1, 0, 1, 1]
    (by decide) (by decide)

/-! ## C2: seeding and determinism -/

/-- Claim C2 counterexample: `kmeans` takes no seed; its initialization
draws from the ambient `Math.random()` stream.  Two runs on the
identical input `(points, k, maxIterations)` whose ambient draws differ
return different centroids and different assignments, so the output is
not a function of the call's inputs. -/
theorem kmeans_not_input_deterministic :
    kmeans [⟨0, 0, 0⟩, ⟨1, 1, 1⟩] 2 1 [0, 1]
      ≠ kmeans [⟨0, 0, 0⟩, ⟨1, 1, 1⟩] 2 1 [1, 0] := by
  norm_num [kmeans, initIdx, kmeansLoop, assign, nearestIdx, scanBest,
    dist2, updateStep, accumSC, vsum, addV, zeroV, List.getD]

/-- Claim C2 amended: the random draws are the only hidden input — two
runs whose draw sequences select the same initial indices (in
particular, identical draw sequences) produce identical centroids and
identical assignments. -/
theorem kmeans_deterministic_given_draws (X : List Vec3) (k maxIter : ℕ)
    (r1 r2 : List ℕ) (h : initIdx X k r1 [] = initIdx X k r2 []) :
    kmeans X k maxIter r1 = kmeans X k maxIter r2 := by
  unfold kmeans
  rw [h]

/-- Witness for the amended C2: two different draw sequences that select
the same indices (the second one first draws a duplicate). -/
theorem kmeans_deterministic_given_draws_witness :
    kmeans [⟨0, 0, 0⟩, ⟨1, 1, 1⟩] 2 5 [0, 1]
      = kmeans [⟨0, 0, 0⟩, ⟨1, 1, 1⟩] 2 5 [0, 0, 1] :=
  kmeans_deterministic_given_draws [⟨0, 0, 0⟩, ⟨1, 1, 1⟩] 2 5 [0, 1]
    [0, 0, 1] (by decide)

/-! ## C4: the update step -/

theorem addV_zero_left (v : Vec3) : addV zeroV v = v := by
  simp [addV, zeroV]

theorem addV_assoc (a b c : Vec3) : addV (addV a b) c = addV a (addV b c) := by
  simp [addV, add_assoc]

theorem vsum_x (A : List Vec3) : (vsum A).x = (A.map Vec3.x).sum := by
  induction A with
  | nil => simp [vsum, zeroV]
  | cons v rest ih => simp [vsum, addV, ih]

theorem vsum_y (A : List Vec3) : (vsum A).y = (A.map Vec3.y).sum := by
  induction A with
  | nil => simp [vsum, zeroV]
  | cons v rest ih => simp [vsum, addV, ih]

theorem vsum_z (A : List Vec3) : (vsum A).z = (A.map Vec3.z).sum := by
  induction A with
  | nil => simp [vsum, zeroV]
  | cons v rest ih => simp [vsum, addV, ih]

/-- Characterization of the accumulation loop: slot `j` of the counts
array receives the number of pairs labelled `j`, and slot `j` of the
sums array the channel-wise sum of their points. -/
theorem accumSC_spec (j : ℕ) :
    ∀ (pl : List (Vec3 × ℕ)) (sums : List Vec3) (counts : List ℕ),
      j < sums.length → j < counts.length →
      (accumSC pl sums counts).2.getD j 0
          = counts.getD j 0 + (pl.filter fun p => p.2 = j).length
        ∧ (accumSC pl sums counts).1.getD j zeroV
          = addV (sums.getD j zeroV)
              (vsum ((pl.filter fun p => p.2 = j).map Prod.fst)) := by
  intro pl
  induction pl with
  | nil =>
    intro sums counts hs hc
    constructor
    · simp [accumSC]
    · simp [accumSC, vsum]
      cases sums.getD j zeroV
      simp [addV, zeroV]
  | cons hd rest ih =>
    obtain ⟨v, l⟩ := hd
    intro sums counts hs hc
    have hs' : j < (sums.set l (addV (sums.getD l zeroV) v)).length := by
      simpa using hs
    have hc' : j < (counts.set l (counts.getD l 0 + 1)).length := by
      simpa using hc
    have hrec := ih (sums.set l (addV (sums.getD l zeroV) v))
      (counts.set l (counts.getD l 0 + 1)) hs' hc'
    by_cases hl : l = j
    · subst hl
      have hfil : ((v, l) :: rest).filter (fun p => p.2 = l)
          = (v, l) :: rest.filter fun p => p.2 = l :=
        List.filter_cons_of_pos (by simp)
      constructor
      · rw [accumSC, hrec.1, getD_set_self _ _ _ hc, hfil]
        simp only [List.length_cons]
        omega
      · rw [accumSC, hrec.2, getD_set_self _ _ _ hs, hfil]
        simp only [List.map_cons, vsum, addV_assoc]
    · have hfil : ((v, l) :: rest).filter (fun p => p.2 = j)
          = rest.filter fun p => p.2 = j :=
        List.filter_cons_of_neg (by simp [hl])
      constructor
      · rw [accumSC, hrec.1, getD_set_ne _ _ _ hl, hfil]
      · rw [accumSC, hrec.2, getD_set_ne _ _ _ hl, hfil]

/-- Claim C4: in every update step, a centroid index with at least one
assigned point is recomputed as the channel-wise arithmetic mean of its
assigned points, and a centroid index with zero assigned points keeps
its previous value unchanged — silently, with no error and no
re-seeding. -/
theorem updateStep_mean_or_retain (X : List Vec3) (labels : List ℕ)
    (C : List Vec3) (j : ℕ) (hj : j < C.length) :
    (assignedPts X labels j = [] →
      (updateStep X labels C).getD j zeroV = C.getD j zeroV) ∧
    (assignedPts X labels j ≠ [] →
      (updateStep X labels C).getD j zeroV = meanV (assignedPts X labels j)) := by
  have hspec := accumSC_spec j (X.zip labels) (List.replicate C.length zeroV)
    (List.replicate C.length 0) (by simpa using hj) (by simpa using hj)
  rw [getD_replicate _ _ hj] at hspec
  rw [getD_replicate _ _ hj] at hspec
  have hcount : (accumSC (X.zip labels) (List.replicate C.length zeroV)
      (List.replicate C.length 0)).2.getD j 0
      = (assignedPts X labels j).length := by
    rw [hspec.1, assignedPts]
    simp
  have hsum : (accumSC (X.zip labels) (List.replicate C.length zeroV)
      (List.replicate C.length 0)).1.getD j zeroV
      = vsum (assignedPts X labels j) := by
    rw [hspec.2, addV_zero_left, assignedPts]
  constructor
  · intro hA
    rw [updateStep, getD_range_map _ _ hj]
    rw [hcount, hA]
    simp
  · intro hA
    rw [updateStep, getD_range_map _ _ hj]
    rw [hcount, hsum]
    rw [if_neg (by simpa [List.length_eq_zero] using hA)]
    rw [meanV, vsum_x, vsum_y, vsum_z]

/-- Witness for C4: with both points labelled 0, centroid 1 has no
assigned point and retains its previous value. -/
theorem updateStep_mean_or_retain_witness :
    (updateStep [⟨0, 0, 0⟩, ⟨1, 1, 1⟩] [0, 0]
      [⟨0, 0, 0⟩, ⟨1 / 2, 1 / 2, 1 / 2⟩]).getD 1 zeroV
      = ⟨1 / 2, 1 / 2, 1 / 2⟩ :=
  (updateStep_mean_or_retain [⟨0, 0, 0⟩, ⟨1, 1, 1⟩] [0, 0]
    [⟨0, 0, 0⟩, ⟨1 / 2, 1 / 2, 1 / 2⟩] 1 (by decide)).1 (by decide)

/-! ## C6: k = 1 returns the global mean -/

theorem initIdx_length (X : List Vec3) (k : ℕ) :
    ∀ rands chosen l : List ℕ, chosen.length ≤ k →
      initIdx X k rands chosen = some l → l.length = k := by
  intro rands
  induction rands with
  | nil =>
    intro chosen l hle h
    rw [initIdx] at h
    by_cases hk : k ≤ chosen.length
    · rw [if_pos hk] at h
      cases h
      omega
    · rw [if_neg hk] at h
      cases h
  | cons r rest ih =>
    intro chosen l hle h
    rw [initIdx] at h
    by_cases hk : k ≤ chosen.length
    · rw [if_pos hk] at h
      cases h
      omega
    · rw [if_neg hk] at h
      by_cases hmem : r ∈ chosen
      · rw [if_pos hmem] at h
        exact ih chosen l hle h
      · rw [if_neg hmem] at h
        refine ih (chosen ++ [r]) l ?_ h
        simp only [List.length_append, List.length_singleton]
        omega

/-- With a single centroid the assignment step labels every point 0. -/
theorem assign_singleton (X : List Vec3) (c : Vec3) :
    assign X [c] = List.replicate X.length 0 := by
  unfold assign
  have : ∀ x : Vec3, nearestIdx x [c] = 0 := fun x => rfl
  simp only [this]
  exact List.map_const' X 0

theorem updateStep_length (X : List Vec3) (L : List ℕ) (C : List Vec3) :
    (updateStep X L C).length = C.length := by
  simp [updateStep]

/-- With all points labelled 0, the points assigned to centroid 0 are
all of them. -/
theorem assignedPts_all_zero (X : List Vec3) :
    assignedPts X (List.replicate X.length 0) 0 = X := by
  unfold assignedPts
  have hfil : (X.zip (List.replicate X.length 0)).filter (fun p => p.2 = 0)
      = X.zip (List.replicate X.length 0) := by
    rw [List.filter_eq_self]
    intro p hp
    have := (List.of_mem_zip hp).2
    simpa using List.eq_of_mem_replicate this
  rw [hfil]
  exact List.map_fst_zip X _ (by simp)

/-- Claim C6: for a non-empty point list, `k = 1`, and at least one
permitted iteration, `kmeans` returns the single centroid equal to the
exact channel-wise arithmetic mean of all input points (with every
point assigned to it). -/
theorem kmeans_k1_mean (X : List Vec3) (maxIter : ℕ) (rands : List ℕ)
    (hX : X ≠ []) (hit : 1 ≤ maxIter) (p : List Vec3 × List ℕ)
    (hp : kmeans X 1 maxIter rands = some p) :
    p = ([meanV X], List.replicate X.length 0) := by
  unfold kmeans at hp
  cases hinit : initIdx X 1 rands [] with
  | none => rw [hinit] at hp; cases hp
  | some idxs =>
    rw [hinit, Option.map_some'] at hp
    have hlen : idxs.length = 1 := initIdx_length X 1 rands [] idxs (by simp) hinit
    obtain ⟨i, rfl⟩ := List.length_eq_one.mp hlen
    obtain ⟨m, rfl⟩ : ∃ m, maxIter = m + 1 := ⟨maxIter - 1, by omega⟩
    rw [List.map_singleton, kmeansLoop] at hp
    rw [assign_singleton X (X.getD i zeroV)] at hp
    rw [if_pos rfl] at hp
    cases hp
    have hup : updateStep X (List.replicate X.length 0) [X.getD i zeroV]
        = [meanV X] := by
      have hne : assignedPts X (List.replicate X.length 0) 0 ≠ [] := by
        rw [assignedPts_all_zero]; exact hX
      have hval := (updateStep_mean_or_retain X (List.replicate X.length 0)
        [X.getD i zeroV] 0 (by simp)).2 hne
      rw [assignedPts_all_zero] at hval
      have hl : (updateStep X (List.replicate X.length 0)
          [X.getD i zeroV]).length = 1 := by
        rw [updateStep_length]; rfl
      obtain ⟨a, ha⟩ := List.length_eq_one.mp hl
      rw [ha] at hval ⊢
      simpa [List.getD] using hval
    rw [hup]

/-- Witness for C6. -/
theorem kmeans_k1_mean_witness :
    kmeans [⟨0, 0, 0⟩, ⟨1, 1, 1⟩] 1 1 [0]
      = some ([meanV [⟨0, 0, 0⟩, ⟨1, 1, 1⟩]], List.replicate 2 0)
    ∧ ([meanV [⟨0, 0, 0⟩, ⟨1, 1, 1⟩]], (List.replicate 2 0 : List ℕ))
      = ([meanV [⟨0, 0, 0⟩, ⟨1, 1, 1⟩]], List.replicate 2 0) := by
  have heval : kmeans [⟨0, 0, 0⟩, ⟨1, 1, 1⟩] 1 1 [0]
      = some ([meanV [⟨0, 0, 0⟩, ⟨1, 1, 1⟩]], List.replicate 2 0) := by
    norm_num [kmeans, initIdx, kmeansLoop, assign, nearestIdx, scanBest,
      dist2, updateStep, accumSC, vsum, addV, zeroV, meanV, List.getD,
      List.range_succ, List.range_zero, List.replicate_succ]
  exact ⟨heval, kmeans_k1_mean [⟨0, 0, 0⟩, ⟨1, 1, 1⟩] 1 [0] (by simp)
    (by norm_num) _ heval⟩

/-! ## C5: the convergence fixed-point property

In the source the convergence check runs *after* the update step, so
when the loop stops because no label changed, the returned centroids
have nevertheless just been recomputed.  When the stop happens at the
second or a later executed iteration the previous iteration's update
makes this recomputation a no-op and the returned pair is a fixed point
of the assignment step; when the stop happens at the *first* iteration
(the freshly computed labels coincide with the initial all-zero labels
array) the update can move centroid 0 and the fixed-point property
fails.  `kmeans_first_stop_not_fixed_point` exhibits the failure and
`kmeans_late_stop_fixed_point` proves the amended property. -/

theorem updateStep_idem (X : List Vec3) (L : List ℕ) (C : List Vec3) :
    updateStep X L (updateStep X L C) = updateStep X L C := by
  have hlen0 := updateStep_length X L C
  have hlen : (updateStep X L (updateStep X L C)).length
      = (updateStep X L C).length := by
    rw [updateStep_length, updateStep_length]
  refine List.ext_getElem hlen ?_
  intro i h1 h2
  have hiC : i < C.length := by omega
  have hiU : i < (updateStep X L C).length := h2
  rw [← List.getD_eq_getElem _ zeroV h1, ← List.getD_eq_getElem _ zeroV h2]
  by_cases hA : assignedPts X L i = []
  · rw [(updateStep_mean_or_retain X L (updateStep X L C) i hiU).1 hA]
  · rw [(updateStep_mean_or_retain X L (updateStep X L C) i hiU).2 hA,
        (updateStep_mean_or_retain X L C i hiC).2 hA]

theorem kmeansLoop_fixed_of_stops (X : List Vec3) :
    ∀ (it : ℕ) (C : List Vec3) (L : List ℕ) (Cp : List Vec3),
      L = assign X Cp → C = updateStep X L Cp →
      stopsEarly X it C L = true →
      assign X (kmeansLoop X it C L).1 = (kmeansLoop X it C L).2 := by
  intro it
  induction it with
  | zero =>
    intro C L Cp h1 h2 h3
    rw [stopsEarly] at h3
    cases h3
  | succ m ih =>
    intro C L Cp h1 h2 h3
    simp only [stopsEarly] at h3
    simp only [kmeansLoop]
    by_cases heq : assign X C = L
    · simp only [if_pos heq]
      rw [heq, h2, updateStep_idem, ← h2]
      exact heq
    · simp only [if_neg heq] at h3 ⊢
      exact ih (updateStep X (assign X C) C) (assign X C) C rfl rfl h3

/-- Claim C5 (amended): if the loop stops early because no assignment
changed, *and* the stop does not happen at the very first executed
iteration (the first computed labels differ from the initial all-zero
labels array), then re-running the assignment step against the returned
centroids reproduces the returned labels exactly — the returned pair is
a fixed point of the assignment step.  The unamended claim, which also
covers a first-iteration stop, is refuted by
`kmeans_first_stop_not_fixed_point`. -/
theorem kmeans_late_stop_fixed_point (X : List Vec3) (it : ℕ)
    (Cinit : List Vec3)
    (h1 : assign X Cinit ≠ List.replicate X.length 0)
    (h2 : stopsEarly X (it + 1) Cinit (List.replicate X.length 0) = true) :
    assign X (kmeansLoop X (it + 1) Cinit (List.replicate X.length 0)).1
      = (kmeansLoop X (it + 1) Cinit (List.replicate X.length 0)).2 := by
  simp only [stopsEarly] at h2
  simp only [kmeansLoop]
  simp only [if_neg h1] at h2 ⊢
  exact kmeansLoop_fixed_of_stops X it _ _ Cinit rfl rfl h2

/-- Witness for the amended C5: a run that stops early at the second
iteration, whose returned pair is a fixed point. -/
theorem kmeans_late_stop_fixed_point_witness :
    assign [⟨0, 0, 0⟩, ⟨1, 1, 1⟩]
        (kmeansLoop [⟨0, 0, 0⟩, ⟨1, 1, 1⟩] 2 [⟨1, 1, 1⟩, ⟨0, 0, 0⟩]
          (List.replicate 2 0)).1
      = (kmeansLoop [⟨0, 0, 0⟩, ⟨1, 1, 1⟩] 2 [⟨1, 1, 1⟩, ⟨0, 0, 0⟩]
          (List.replicate 2 0)).2 :=
  kmeans_late_stop_fixed_point [⟨0, 0, 0⟩, ⟨1, 1, 1⟩] 1
    [⟨1, 1, 1⟩, ⟨0, 0, 0⟩]
    (by norm_num [assign, nearestIdx, scanBest, dist2, List.replicate_succ])
    (by norm_num [stopsEarly, assign, nearestIdx, scanBest, dist2,
      updateStep, accumSC, vsum, addV, zeroV, List.getD,
      List.range_succ, List.range_zero, List.replicate_succ])

/-- Claim C5 counterexample: with points `[[0,0,0],[0,0,0],[1,1,1]]`,
`k = 2` and initial draws picking indices 0 and 1 (two centroids with
the equal value `[0,0,0]`), every point's nearest centroid is index 0,
so the first iteration changes no label and the loop stops immediately
— the second conjunct shows that every positive iteration budget yields
this same result.  The update step has nevertheless moved centroid 0 to
the global mean, and re-running the assignment step against the
returned centroids relabels both `[0,0,0]` points to centroid 1: the
returned pair is *not* a fixed point of the assignment step. -/
theorem kmeans_first_stop_not_fixed_point :
    kmeans [⟨0, 0, 0⟩, ⟨0, 0, 0⟩, ⟨1, 1, 1⟩] 2 30 [0, 1]
      = some ([⟨1 / 3, 1 / 3, 1 / 3⟩, ⟨0, 0, 0⟩], [0, 0, 0])
    ∧ kmeans [⟨0, 0, 0⟩, ⟨0, 0, 0⟩, ⟨1, 1, 1⟩] 2 1 [0, 1]
      = kmeans [⟨0, 0, 0⟩, ⟨0, 0, 0⟩, ⟨1, 1, 1⟩] 2 30 [0, 1]
    ∧ assign [⟨0, 0, 0⟩, ⟨0, 0, 0⟩, ⟨1, 1, 1⟩]
        [⟨1 / 3, 1 / 3, 1 / 3⟩, ⟨0, 0, 0⟩] ≠ [0, 0, 0] := by
  have hassign : assign [⟨0, 0, 0⟩, ⟨0, 0, 0⟩, ⟨1, 1, 1⟩]
      [⟨0, 0, 0⟩, ⟨0, 0, 0⟩] = [0, 0, 0] := by
    norm_num [assign, nearestIdx, scanBest, dist2]
  have hupd : updateStep [⟨0, 0, 0⟩, ⟨0, 0, 0⟩, ⟨1, 1, 1⟩] [0, 0, 0]
      [⟨0, 0, 0⟩, ⟨0, 0, 0⟩] = [⟨1 / 3, 1 / 3, 1 / 3⟩, ⟨0, 0, 0⟩] := by
    norm_num [updateStep, accumSC, vsum, addV, zeroV, List.getD,
      List.range_succ, List.range_zero, List.replicate_succ]
  have hrun : ∀ m : ℕ, kmeans [⟨0, 0, 0⟩, ⟨0, 0, 0⟩, ⟨1, 1, 1⟩] 2 (m + 1) [0, 1]
      = some ([⟨1 / 3, 1 / 3, 1 / 3⟩, ⟨0, 0, 0⟩], [0, 0, 0]) := by
    intro m
    have hinit : initIdx [⟨0, 0, 0⟩, ⟨0, 0, 0⟩, ⟨1, 1, 1⟩] 2 [0, 1] []
        = some [0, 1] := by decide
    unfold kmeans
    rw [hinit, Option.map_some']
    have hC0 : ([0, 1] : List ℕ).map
        (fun i => [⟨0, 0, 0⟩, ⟨0, 0, 0⟩, ⟨1, 1, 1⟩].getD i zeroV)
        = [(⟨0, 0, 0⟩ : Vec3), ⟨0, 0, 0⟩] := by
      simp [List.getD]
    rw [hC0]
    have hrep : (List.replicate
        (List.length [(⟨0, 0, 0⟩ : Vec3), ⟨0, 0, 0⟩, ⟨1, 1, 1⟩]) 0 : List ℕ)
        = [0, 0, 0] := rfl
    rw [hrep]
    simp only [kmeansLoop, hassign, hupd, if_pos]
  refine ⟨hrun 29, ?_, ?_⟩
  · rw [hrun 0, hrun 29]
  · norm_num [assign, nearestIdx, scanBest, dist2]
/-! ## C7: segmentation -/

/-- Full characterization of the best-index scan: starting from running
best `b < j` whose distance bounds all indices below `j` (strictly
those below `b`), and a remaining list that mirrors `C` from index `j`
on, the scan returns the least index of `C` attaining the minimal
squared distance. -/
theorem scanBest_spec (x : Vec3) :
    ∀ (rest C : List Vec3) (j b : ℕ),
      b < j → j + rest.length = C.length →
      (∀ i, i < rest.length → rest.getD i zeroV = C.getD (j + i) zeroV) →
      (∀ m, m < j → dist2 x (C.getD b zeroV) ≤ dist2 x (C.getD m zeroV)) →
      (∀ m, m < b → dist2 x (C.getD b zeroV) < dist2 x (C.getD m zeroV)) →
      scanBest x rest j b (dist2 x (C.getD b zeroV)) < C.length
      ∧ (∀ m, m < C.length →
          dist2 x (C.getD (scanBest x rest j b (dist2 x (C.getD b zeroV))) zeroV)
            ≤ dist2 x (C.getD m zeroV))
      ∧ (∀ m, m < scanBest x rest j b (dist2 x (C.getD b zeroV)) →
          dist2 x (C.getD (scanBest x rest j b (dist2 x (C.getD b zeroV))) zeroV)
            < dist2 x (C.getD m zeroV)) := by
  intro rest
  induction rest with
  | nil =>
    intro C j b hbj hlen hidx hmin hstrict
    simp only [scanBest]
    have hjC : j = C.length := by simpa using hlen
    exact ⟨by omega, fun m hm => hmin m (by omega), hstrict⟩
  | cons c rest ih =>
    intro C j b hbj hlen hidx hmin hstrict
    have hc : c = C.getD j zeroV := by
      have h0 := hidx 0 (by simp)
      simpa using h0
    have hlen' : j + 1 + rest.length = C.length := by
      simp only [List.length_cons] at hlen
      omega
    have hidx' : ∀ i, i < rest.length → rest.getD i zeroV = C.getD (j + 1 + i) zeroV := by
      intro i hi
      have h := hidx (i + 1) (by simp only [List.length_cons]; omega)
      rw [List.getD_cons_succ] at h
      rw [show j + 1 + i = j + (i + 1) by omega]
      exact h
    simp only [scanBest]
    by_cases hlt : dist2 x c < dist2 x (C.getD b zeroV)
    · rw [if_pos hlt, hc]
      rw [hc] at hlt
      refine ih C (j + 1) j (by omega) hlen' hidx' ?_ ?_
      · intro m hm
        rcases Nat.lt_succ_iff_lt_or_eq.mp hm with h | h
        · exact le_of_lt (lt_of_lt_of_le hlt (hmin m h))
        · subst h
          exact le_refl _
      · intro m hm
        exact lt_of_lt_of_le hlt (hmin m hm)
    · rw [if_neg hlt]
      rw [hc] at hlt
      refine ih C (j + 1) b (by omega) hlen' hidx' ?_ hstrict
      intro m hm
      rcases Nat.lt_succ_iff_lt_or_eq.mp hm with h | h
      · exact hmin m h
      · subst h
        exact not_lt.mp hlt

/-- The nearest-centroid index is the least argmin of the squared
distance over a non-empty centroid list. -/
theorem nearestIdx_spec (x c0 : Vec3) (rest : List Vec3) :
    nearestIdx x (c0 :: rest) < (c0 :: rest).length
    ∧ (∀ m, m < (c0 :: rest).length →
        dist2 x ((c0 :: rest).getD (nearestIdx x (c0 :: rest)) zeroV)
          ≤ dist2 x ((c0 :: rest).getD m zeroV))
    ∧ (∀ m, m < nearestIdx x (c0 :: rest) →
        dist2 x ((c0 :: rest).getD (nearestIdx x (c0 :: rest)) zeroV)
          < dist2 x ((c0 :: rest).getD m zeroV)) := by
  have h := scanBest_spec x rest (c0 :: rest) 1 0 (by omega)
    (by simp [Nat.add_comm])
    (fun i hi => by
      rw [show 1 + i = i + 1 by omega]
      simp)
    (fun m hm => by
      have : m = 0 := by omega
      subst this
      exact le_refl _)
    (fun m hm => absurd hm (by omega))
  simpa [nearestIdx, List.getD_cons_zero] using h

/-- Claim C7: `segment` preserves the pixel count, and every output
pixel is the quantized color — channels rounded to the nearest integer
of the 0..255 range, alpha 255 — of a closest centroid (minimal squared
distance), namely the one of lowest index among the minimizers; hence
every output pixel equals one of the centroids' quantized colors. -/
theorem applySegmentation_spec (pixels : List Vec3) (c0 : Vec3)
    (rest : List Vec3) (out : List (ℤ × ℤ × ℤ × ℤ))
    (h : applySegmentation pixels (c0 :: rest) = some out) :
    out.length = pixels.length
    ∧ ∀ i, i < pixels.length →
        ∃ jx, jx < (c0 :: rest).length
          ∧ out.getD i (0, 0, 0, 0) = quantC ((c0 :: rest).getD jx zeroV)
          ∧ (∀ m, m < (c0 :: rest).length →
              dist2 (pixels.getD i zeroV) ((c0 :: rest).getD jx zeroV)
                ≤ dist2 (pixels.getD i zeroV) ((c0 :: rest).getD m zeroV))
          ∧ (∀ m, m < jx →
              dist2 (pixels.getD i zeroV) ((c0 :: rest).getD jx zeroV)
                < dist2 (pixels.getD i zeroV) ((c0 :: rest).getD m zeroV)) := by
  have hout : out = pixels.map
      (fun px => quantC ((c0 :: rest).getD (nearestIdx px (c0 :: rest)) zeroV)) := by
    have := h.symm
    simpa [applySegmentation] using this
  subst hout
  refine ⟨by simp, ?_⟩
  intro i hi
  have hspec := nearestIdx_spec (pixels.getD i zeroV) c0 rest
  refine ⟨nearestIdx (pixels.getD i zeroV) (c0 :: rest), hspec.1, ?_,
    hspec.2.1, hspec.2.2⟩
  exact getD_map_of_lt _ pixels (0, 0, 0, 0) zeroV hi

/-- Witness for C7: one black pixel against centroids
`[[1,0,0],[0,0,0]]`; the nearest is index 1 and the output pixel is its
quantized color. -/
theorem applySegmentation_spec_witness :
    ∃ out, applySegmentation [⟨0, 0, 0⟩] [⟨1, 0, 0⟩, ⟨0, 0, 0⟩] = some out
      ∧ out.length = 1 := by
  have h : applySegmentation [⟨0, 0, 0⟩] [⟨1, 0, 0⟩, ⟨0, 0, 0⟩]
      = some [(0, 0, 0, 255)] := by
    norm_num [applySegmentation, nearestIdx, scanBest, dist2, quantC,
      jsRound, zeroV, List.getD]
  exact ⟨[(0, 0, 0, 255)],
    h, ((applySegmentation_spec [⟨0, 0, 0⟩] ⟨1, 0, 0⟩ [⟨0, 0, 0⟩]
      [(0, 0, 0, 255)] h).1).trans rfl⟩

/-! ## C8: projection -/

/-- Claim C8: the per-point projection of `drawPlot` rotates about the
horizontal axis first and about the vertical axis second (exactly that
order), then returns `screenX = centerX + panX + rotated.x * scale` and
`screenY = centerY + panY - rotated.y * scale` with
`scale = min(width, height)/2 * zoom` (`centerX = width/2`,
`centerY = height/2`).  Stated for arbitrary cosine/sine matrix
entries, hence for the cosines and sines of any angles; purity holds
because `projectPoint` is a function of exactly these arguments. -/
theorem projectPoint_spec (ca sa cb sb zoom panX panY width height : ℚ)
    (p : Vec3) :
    projectPoint ca sa cb sb zoom panX panY width height p
      = (width / 2 + panX
          + (specRotY cb sb (specRotX ca sa p)).x
            * (min width height / 2 * zoom),
         height / 2 + panY
          - (specRotY cb sb (specRotX ca sa p)).y
            * (min width height / 2 * zoom)) := by
  simp only [projectPoint, mulMat, rotationMatrixX, rotationMatrixY,
    specRotX, specRotY, Prod.mk.injEq]
  constructor <;> ring

/-! ## Gesture lemmas shared by C3, C9, C10 -/

theorem distance_pos {a b : ℝ × ℝ} (h : a ≠ b) : 0 < distance a b := by
  unfold distance
  apply Real.sqrt_pos.mpr
  have h1 : a.1 - b.1 ≠ 0 ∨ a.2 - b.2 ≠ 0 := by
    by_contra hcon
    push_neg at hcon
    exact h (Prod.ext (by linarith [hcon.1]) (by linarith [hcon.2]))
  rcases h1 with h1 | h1
  · have := mul_self_pos.mpr h1
    have := mul_self_nonneg (a.2 - b.2)
    linarith
  · have := mul_self_pos.mpr h1
    have := mul_self_nonneg (a.1 - b.1)
    linarith

theorem setPtr_length_of_has {l : List (ℕ × ℝ × ℝ)} {i : ℕ} (p : ℝ × ℝ)
    (h : hasPtr l i = true) : (setPtr l i p).length = l.length := by
  unfold setPtr
  rw [if_pos h]
  exact List.length_map l _

/-- One benign event preserves the camera invariant: positive zoom and
positive cached pinch baseline. -/
theorem step_preserves_CamInv (s : GState) (e : PEvent)
    (hInv : CamInv s) (hg : goodEvt s e) : CamInv (step e s) := by
  obtain ⟨hz, hl⟩ := hInv
  cases e with
  | wheel d =>
    simp only [goodEvt] at hg
    exact ⟨mul_pos hz hg, hl⟩
  | up i => exact ⟨hz, by simp [step, pointerup]⟩
  | cancel i => exact ⟨hz, by simp [step, pointerup]⟩
  | down i x y =>
    simp only [step, pointerdown, goodEvt] at hg ⊢
    by_cases h1 : (setPtr s.pointers i (x, y)).length = 1
    · rw [if_pos h1]
      exact ⟨hz, hl⟩
    · rw [if_neg h1]
      by_cases h2 : (setPtr s.pointers i (x, y)).length = 2
      · rw [if_pos h2]
        refine ⟨hz, ?_⟩
        intro d hd
        simp only [Option.some.injEq] at hd
        rw [← hd]
        exact distance_pos (hg h2)
      · rw [if_neg h2]
        exact ⟨hz, hl⟩
  | move i x y =>
    simp only [step, pointermove, goodEvt] at hg ⊢
    by_cases hhas : hasPtr s.pointers i = false
    · rw [if_pos hhas]
      exact ⟨hz, hl⟩
    · rw [if_neg hhas]
      have hhas' : hasPtr s.pointers i = true := by
        revert hhas
        cases hasPtr s.pointers i <;> simp
      by_cases h1 : (setPtr s.pointers i (x, y)).length = 1
      · rw [if_pos h1]
        cases s.lastSingle with
        | some ls => exact ⟨hz, hl⟩
        | none => exact ⟨hz, hl⟩
      · rw [if_neg h1]
        by_cases h2 : (setPtr s.pointers i (x, y)).length = 2
        · rw [if_pos h2]
          have hdpos : 0 < distance (ptrPos (setPtr s.pointers i (x, y)) 0)
              (ptrPos (setPtr s.pointers i (x, y)) 1) :=
            distance_pos (hg hhas' h2)
          constructor
          · cases hlpd : s.lastPinchDist with
            | none => simpa [hlpd] using hz
            | some lpd =>
              simp only [hlpd]
              exact mul_pos hz (div_pos hdpos (hl lpd hlpd))
          · intro d hd
            simp only [Option.some.injEq] at hd
            rw [← hd]
            exact hdpos
        · rw [if_neg h2]
          exact ⟨hz, hl⟩

/-- The invariant is preserved along any benign event sequence. -/
theorem run_preserves_CamInv (es : List PEvent) :
    ∀ s, CamInv s → goodRun s es → CamInv (run es s) := by
  induction es with
  | nil =>
    intro s h _
    simpa [run] using h
  | cons e rest ih =>
    intro s h hg
    have hstep := step_preserves_CamInv s e h hg.1
    simpa [run] using ih (step e s) hstep hg.2

/-! ## C3: zoom positivity -/

/-- Claim C3 counterexample: the wheel handler has no clamp or guard.
A single wheel event with `deltaY = 1000` multiplies zoom by
`1 + (-1000)*0.001 = 0`, so a camera whose zoom starts at the positive
default `1.2` reaches zoom `= 0` after one event. -/
theorem wheel_can_zero_zoom :
    (0 : ℝ) < (6 / 5 : ℝ)
    ∧ (step (PEvent.wheel 1000)
        ⟨[], none, none, none, 0, 0, 6 / 5, 0, 0⟩).zoomVal = 0 := by
  constructor
  · norm_num
  · show (6 / 5 : ℝ) * (1 + -(1000 : ℝ) * (1 / 1000)) = 0
    norm_num

/-- Claim C3 (amended): the zoom is not unconditionally positive (see
`wheel_can_zero_zoom`); it stays positive along a sequence of events
provided every wheel event has a positive factor
(`1 + (-deltaY)*0.001 > 0`, i.e. `deltaY < 1000`) and no event puts the
two tracked pointers of a two-pointer state on the same position. -/
theorem zoom_stays_positive_on_good_runs (s : GState) (es : List PEvent)
    (h0 : 0 < s.zoomVal)
    (hbase : ∀ d, s.lastPinchDist = some d → 0 < d)
    (hg : goodRun s es) : 0 < (run es s).zoomVal :=
  (run_preserves_CamInv es s ⟨h0, hbase⟩ hg).1

/-- Witness for the amended C3: one benign wheel event. -/
theorem zoom_stays_positive_on_good_runs_witness :
    0 < (run [PEvent.wheel 100]
      ⟨[], none, none, none, 0, 0, 6 / 5, 0, 0⟩).zoomVal :=
  zoom_stays_positive_on_good_runs ⟨[], none, none, none, 0, 0, 6 / 5, 0, 0⟩
    [PEvent.wheel 100] (by norm_num) (by simp)
    ⟨by simp only [goodEvt]; norm_num, trivial⟩

/-! ## C9: more than two pointers -/

/-- Claim C9 counterexample: three pointers are active (the first two at
distance 1 when the pinch baseline was cached), and a move of pointer 1
doubles the distance between the first two tracked pointers.  The claim
says two-pointer zoom-by-ratio semantics still applies, which would
scale zoom by 2; instead the handler takes neither the one- nor the
two-pointer branch and every camera field is unchanged. -/
theorem move_with_three_pointers_changes_nothing :
    (run [PEvent.down 1 0 0, PEvent.down 2 0 1, PEvent.down 3 5 5]
        ⟨[], none, none, none, 0, 0, 6 / 5, 0, 0⟩).lastPinchDist = some 1
    ∧ (run [PEvent.down 1 0 0, PEvent.down 2 0 1, PEvent.down 3 5 5,
        PEvent.move 1 0 (-1)]
        ⟨[], none, none, none, 0, 0, 6 / 5, 0, 0⟩).zoomVal = 6 / 5
    ∧ (run [PEvent.down 1 0 0, PEvent.down 2 0 1, PEvent.down 3 5 5,
        PEvent.move 1 0 (-1)]
        ⟨[], none, none, none, 0, 0, 6 / 5, 0, 0⟩).panX = 0
    ∧ (run [PEvent.down 1 0 0, PEvent.down 2 0 1, PEvent.down 3 5 5,
        PEvent.move 1 0 (-1)]
        ⟨[], none, none, none, 0, 0, 6 / 5, 0, 0⟩).panY = 0
    ∧ (run [PEvent.down 1 0 0, PEvent.down 2 0 1, PEvent.down 3 5 5,
        PEvent.move 1 0 (-1)]
        ⟨[], none, none, none, 0, 0, 6 / 5, 0, 0⟩).rotXVal = 0
    ∧ (run [PEvent.down 1 0 0, PEvent.down 2 0 1, PEvent.down 3 5 5,
        PEvent.move 1 0 (-1)]
        ⟨[], none, none, none, 0, 0, 6 / 5, 0, 0⟩).rotYVal = 0
    ∧ distance (0, -1) (0, 1) = 2 := by
  have hd1 : distance (0 : ℝ × ℝ) ((0 : ℝ), (1 : ℝ)) = 1 := by
    simp only [distance, Prod.fst_zero, Prod.snd_zero]
    norm_num
  have hd2 : distance ((0 : ℝ), (-1 : ℝ)) ((0 : ℝ), (1 : ℝ)) = 2 := by
    unfold distance
    rw [show ((0 : ℝ) - 0) * ((0 : ℝ) - 0) + (-1 - 1) * (-1 - 1) = 2 ^ 2 by
      norm_num]
    exact Real.sqrt_sq (by norm_num)
  refine ⟨?_, ?_, ?_, ?_, ?_, ?_, hd2⟩ <;>
    simp [run, step, pointerdown, pointermove, setPtr, hasPtr, ptrPos,
      midpt, List.getD, hd1]

/-- Claim C9 (amended): when more than two pointers are active, a move
event only re-records the moved pointer's position; zoom, pan, rotation
and the cached baselines are all left unchanged — the two-pointer
semantics is suppressed rather than computed from the first two
tracked pointers. -/
theorem move_with_three_pointers_suppressed (s : GState) (i : ℕ) (x y : ℝ)
    (hhas : hasPtr s.pointers i = true) (h3 : 3 ≤ s.pointers.length) :
    (pointermove i x y s).zoomVal = s.zoomVal
    ∧ (pointermove i x y s).panX = s.panX
    ∧ (pointermove i x y s).panY = s.panY
    ∧ (pointermove i x y s).rotXVal = s.rotXVal
    ∧ (pointermove i x y s).rotYVal = s.rotYVal
    ∧ (pointermove i x y s).lastPinchDist = s.lastPinchDist
    ∧ (pointermove i x y s).lastMid = s.lastMid
    ∧ (pointermove i x y s).lastSingle = s.lastSingle
    ∧ (pointermove i x y s).pointers = setPtr s.pointers i (x, y) := by
  have hlen : (setPtr s.pointers i (x, y)).length = s.pointers.length :=
    setPtr_length_of_has _ hhas
  unfold pointermove
  rw [if_neg (by simp [hhas])]
  rw [if_neg (by omega), if_neg (by omega)]
  simp

/-- Witness for the amended C9. -/
theorem move_with_three_pointers_suppressed_witness :
    (pointermove 1 2 0
      ⟨[(1, 0, 0), (2, 1, 0), (3, 5, 5)], some 1, some (1 / 2, 0), none,
        0, 0, 6 / 5, 0, 0⟩).zoomVal = 6 / 5 :=
  (move_with_three_pointers_suppressed
    ⟨[(1, 0, 0), (2, 1, 0), (3, 5, 5)], some 1, some (1 / 2, 0), none,
      0, 0, 6 / 5, 0, 0⟩ 1 2 0 (by simp [hasPtr]) (by simp)).1

/-! ## C10: the pinch baseline -/

/-- Claim C10 counterexample: the two pointers go down at distinct
positions, so the cached baseline distance is `1 ≠ 0` on entering the
two-pointer state; but the first move places pointer 1 on top of
pointer 2, the zoom is multiplied by `0/1 = 0`, and the baseline cache
is overwritten with `0` while two pointers remain active — the *next*
two-pointer move event divides by the cached `0`; the nonzero-at-entry
precondition does not make the division-by-zero branch unreachable. -/
theorem pinch_baseline_can_become_zero :
    (run [PEvent.down 1 0 0, PEvent.down 2 1 0]
        ⟨[], none, none, none, 0, 0, 6 / 5, 0, 0⟩).lastPinchDist = some 1
    ∧ (run [PEvent.down 1 0 0, PEvent.down 2 1 0, PEvent.move 1 1 0]
        ⟨[], none, none, none, 0, 0, 6 / 5, 0, 0⟩).lastPinchDist = some 0
    ∧ (run [PEvent.down 1 0 0, PEvent.down 2 1 0, PEvent.move 1 1 0]
        ⟨[], none, none, none, 0, 0, 6 / 5, 0, 0⟩).zoomVal = 0
    ∧ (run [PEvent.down 1 0 0, PEvent.down 2 1 0, PEvent.move 1 1 0]
        ⟨[], none, none, none, 0, 0, 6 / 5, 0, 0⟩).pointers.length = 2 := by
  have hd1 : distance (0 : ℝ × ℝ) ((1 : ℝ), (0 : ℝ)) = 1 := by
    simp only [distance, Prod.fst_zero, Prod.snd_zero]
    norm_num
  have hd0 : distance ((1 : ℝ), (0 : ℝ)) ((1 : ℝ), (0 : ℝ)) = 0 := by
    unfold distance
    norm_num
  refine ⟨?_, ?_, ?_, ?_⟩ <;>
    simp [run, step, pointerdown, pointermove, setPtr, hasPtr, ptrPos,
      midpt, List.getD, hd1, hd0]

/-- Claim C10 (amended): the nonzero baseline must be maintained, not
just established at entry: provided the two tracked pointers are at
distinct positions at *every* event that caches a pinch baseline, the
cached divisor is positive whenever it is present — every pinch
division is by a nonzero value — and the zoom stays positive. -/
theorem pinch_divisor_stays_positive (s : GState) (es : List PEvent)
    (h0 : 0 < s.zoomVal)
    (hbase : ∀ d, s.lastPinchDist = some d → 0 < d)
    (hg : goodRun s es) :
    (∀ d, (run es s).lastPinchDist = some d → 0 < d)
    ∧ 0 < (run es s).zoomVal := by
  have h := run_preserves_CamInv es s ⟨h0, hbase⟩ hg
  exact ⟨h.2, h.1⟩

/-- Witness for the amended C10: a two-pointer gesture entered at
distinct positions keeps a positive cached divisor. -/
theorem pinch_divisor_stays_positive_witness :
    (∀ d, (run [PEvent.down 1 0 0, PEvent.down 2 1 0]
        ⟨[], none, none, none, 0, 0, 6 / 5, 0, 0⟩).lastPinchDist = some d →
        0 < d)
    ∧ 0 < (run [PEvent.down 1 0 0, PEvent.down 2 1 0]
        ⟨[], none, none, none, 0, 0, 6 / 5, 0, 0⟩).zoomVal :=
  pinch_divisor_stays_positive ⟨[], none, none, none, 0, 0, 6 / 5, 0, 0⟩
    [PEvent.down 1 0 0, PEvent.down 2 1 0] (by norm_num) (by simp)
    ⟨by simp [goodEvt, setPtr, hasPtr],
     by
      refine ⟨?_, trivial⟩
      simp only [goodEvt]
      intro h2
      simp [step, pointerdown, setPtr, hasPtr, firstTwoDistinct, ptrPos,
        List.getD, Prod.ext_iff]⟩

end Script

